import Mathlib

/-!
Verification development for the `da.utils.hierarchy` module (file
`src/da/utils/hierarchy.py`): a shallow embedding of its structural-diff
generator `compare_hierarchy` and of the mutable `HierarchyNode` /
`HierarchyList` object model, together with theorems settling the spec's
claims about them.
-/

namespace Da

/-! ## Python values

Python values handled by `compare_hierarchy`: integers, strings, `None`,
lists and (string-keyed) dictionaries.  Dictionaries are embedded as
association lists; genuine Python dictionaries never contain a duplicate
key, so definitions below read the iterated value directly where the
source indexes the dictionary it is iterating over. -/

inductive Value where
  | int : Int → Value
  | str : String → Value
  | none : Value
  | list : List Value → Value
  | dict : List (String × Value) → Value

/-- Structural induction for `Value` through its nested lists. -/
theorem Value.induct (P : Value → Prop)
    (hint : ∀ n, P (.int n)) (hstr : ∀ s, P (.str s)) (hnone : P .none)
    (hlist : ∀ xs, (∀ v ∈ xs, P v) → P (.list xs))
    (hdict : ∀ ps, (∀ p ∈ ps, P (Prod.snd p)) → P (.dict ps)) : ∀ v, P v := by
  have H : ∀ n v, sizeOf v ≤ n → P v := by
    intro n
    induction n with
    | zero => intro v hv; cases v <;> simp at hv
    | succ n ih =>
      intro v hv
      match v with
      | .int m => exact hint m
      | .str s => exact hstr s
      | .none => exact hnone
      | .list xs =>
        refine hlist xs fun u hu => ih u ?_
        have h1 := List.sizeOf_lt_of_mem hu
        have h2 : sizeOf (Value.list xs) = 1 + sizeOf xs := by simp
        omega
      | .dict ps =>
        refine hdict ps fun p hp => ih p.2 ?_
        have h1 := List.sizeOf_lt_of_mem hp
        have h2 : sizeOf p = 1 + sizeOf p.1 + sizeOf p.2 := by cases p; simp
        have h3 : sizeOf (Value.dict ps) = 1 + sizeOf ps := by simp
        omega
  exact fun v => H (sizeOf v) v le_rfl

mutual
/-- Structural (Lean-level) equality test for `Value`. -/
def ibeq : Value → Value → Bool
  | .int a, .int b => a == b
  | .str a, .str b => a == b
  | .none, .none => true
  | .list a, .list b => ibeqL a b
  | .dict a, .dict b => ibeqD a b
  | _, _ => false

/-- Structural equality of value lists. -/
def ibeqL : List Value → List Value → Bool
  | [], [] => true
  | a :: ra, b :: rb => ibeq a b && ibeqL ra rb
  | _, _ => false

/-- Structural equality of dict item lists. -/
def ibeqD : List (String × Value) → List (String × Value) → Bool
  | [], [] => true
  | (k, v) :: ra, (k2, w) :: rb => k == k2 && ibeq v w && ibeqD ra rb
  | _, _ => false
end

theorem ibeq_iff : ∀ a b : Value, ibeq a b = true ↔ a = b := by
  intro a
  induction a using Value.induct with
  | hint n => intro b; cases b <;> simp [ibeq]
  | hstr s => intro b; cases b <;> simp [ibeq]
  | hnone => intro b; cases b <;> simp [ibeq]
  | hlist xs ih =>
    intro b
    cases b with
    | list ys =>
      simp only [ibeq, Value.list.injEq]
      induction xs generalizing ys with
      | nil => cases ys <;> simp [ibeqL]
      | cons x xr ihl =>
        cases ys with
        | nil => simp [ibeqL]
        | cons y yr =>
          have hx := ih x (by simp)
          have hr := ihl (fun v hv => ih v (by simp [hv])) yr
          simp [ibeqL, Bool.and_eq_true, hx y, hr]
    | int m => simp [ibeq]
    | str s => simp [ibeq]
    | none => simp [ibeq]
    | dict ps => simp [ibeq]
  | hdict ps ih =>
    intro b
    cases b with
    | dict qs =>
      simp only [ibeq, Value.dict.injEq]
      induction ps generalizing qs with
      | nil => cases qs <;> simp [ibeqD]
      | cons p pr ihl =>
        cases qs with
        | nil => cases p; simp [ibeqD]
        | cons q qr =>
          cases p with
          | mk k v =>
            cases q with
            | mk k2 w =>
              have hx := ih (k, v) (by simp)
              have hr := ihl (fun u hu => ih u (by simp [hu])) qr
              simp only [ibeqD, Bool.and_eq_true, beq_iff_eq, List.cons.injEq,
                Prod.mk.injEq] at *
              constructor
              · rintro ⟨⟨h1, h2⟩, h3⟩; exact ⟨⟨h1, (hx w).mp h2⟩, hr.mp h3⟩
              · rintro ⟨⟨h1, h2⟩, h3⟩; exact ⟨⟨h1, (hx w).mpr h2⟩, hr.mpr h3⟩
    | int m => simp [ibeq]
    | str s => simp [ibeq]
    | none => simp [ibeq]
    | list xs => simp [ibeq]

instance : DecidableEq Value := fun a b => decidable_of_iff (ibeq a b = true) (ibeq_iff a b)

/-- Keys used for subscripting: list indices (from `enumerate`) or dict keys. -/
inductive PKey where
  | n : Nat → PKey
  | s : String → PKey
deriving DecidableEq

/-- Exceptions that subscripting / `len` can raise in the source. -/
inductive PyErr where
  | indexError
  | keyError
  | typeError
deriving DecidableEq

/-- Dictionary lookup: value of the first entry with the given key (`d[k]`). -/
def lookupStr : List (String × Value) → String → Option Value
  | [], _ => Option.none
  | (k, v) :: rest, key => if k == key then some v else lookupStr rest key

mutual
/-- Python `==` on embedded values (`a == b` / `a != b` in the source).
Cross-type comparisons are `False`, never an error; dict equality is
length equality plus every item of the left dict being present in the
right one. -/
def pyEq : (a b : Value) → Bool
  | .int a, .int b => a == b
  | .str a, .str b => a == b
  | .none, .none => true
  | .list a, .list b => pyEqList a b
  | .dict a, .dict b => a.length == b.length && pyEqDict b a
  | _, _ => false
termination_by a b => sizeOf a + sizeOf b
decreasing_by all_goals (simp_wf; try omega)

/-- Elementwise Python `==` of two lists. -/
def pyEqList : (a b : List Value) → Bool
  | [], [] => true
  | a :: ra, b :: rb => pyEq a b && pyEqList ra rb
  | _, _ => false
termination_by a b => sizeOf a + sizeOf b
decreasing_by all_goals (simp_wf; try omega)

/-- Every item of the second argument is present (with `==` value) in the
first dictionary. -/
def pyEqDict : (b l : List (String × Value)) → Bool
  | _, [] => true
  | b, (k, v) :: rest => pyEqFind k v b && pyEqDict b rest
termination_by b l => sizeOf b + sizeOf l
decreasing_by all_goals (simp_wf; try omega)

/-- Looks up `k` in the dictionary and compares the found value with `v`. -/
def pyEqFind (k : String) (v : Value) : (l : List (String × Value)) → Bool
  | [] => false
  | (k2, w) :: rest => if k2 == k then pyEq v w else pyEqFind k v rest
termination_by l => sizeOf v + sizeOf l
decreasing_by all_goals (simp_wf; try omega)
end

/-- `isinstance(x, (list, dict))`: the container test of the source, which
only ever inspects its argument's own type. -/
def isContainer : Value → Bool
  | .list _ => true
  | .dict _ => true
  | _ => false

/-- Python `len`: defined on lists, dicts and strings, a `TypeError`
otherwise. -/
def pyLen : Value → Except PyErr Nat
  | .list xs => .ok xs.length
  | .dict ps => .ok ps.length
  | .str s => .ok s.length
  | _ => .error .typeError

/-- Python subscripting `x[k]`, with the exception each failure raises:
`IndexError` for an out-of-range list/string index, `KeyError` for a
missing dict key (or a non-string key on a string-keyed dict),
`TypeError` for subscripting a non-subscriptable value or a list/string
with a non-integer key. -/
def getItem : Value → PKey → Except PyErr Value
  | .list xs, .n i => if h : i < xs.length then .ok xs[i] else .error .indexError
  | .list _, .s _ => .error .typeError
  | .dict ps, .s k =>
      match lookupStr ps k with
      | some v => .ok v
      | Option.none => .error .keyError
  | .dict _, .n _ => .error .keyError
  | .str s, .n i =>
      if h : i < s.data.length then .ok (.str (String.mk [s.data[i]])) else .error .indexError
  | .str _, .s _ => .error .typeError
  | _, _ => .error .typeError

/-- Renders a `PKey` as the Python value it is (an int or a str). -/
def PKey.val : PKey → Value
  | .n i => .int i
  | .s k => .str k

/-- One `HierarchyDifference` record (the namedtuple of the source).  The
`key_path` field holds the contents of the shared path stack at the
moment the record is yielded (the consumer of the lazy generator observes
exactly that snapshot). -/
structure HierarchyDifference where
  key_path : List Value
  key : Value
  a : Value
  b : Value
  parent_a : Value
  parent_b : Value
  level : Nat
  vtype : String
deriving DecidableEq

/-- `current()` of the source: the top of the path stack, or `None`. -/
def currentTop (stack : List Value) : Value :=
  (stack.getLast?).getD .none

mutual
/-- The recursive `descent` generator of `compare_hierarchy`, embedded as a
function from the current path stack and arguments to the pair of the
records yielded and the exception (if any) that escapes the generator.
An `IndexError` escaping a nested `descent` iteration is caught by the
`except IndexError` of the frame that called it and converted into an
`index`-kind record; every other escaping exception propagates (the
skipped `stack.pop()` on such a propagation is unobservable, since no
further record is ever yielded). -/
def descent (stack : List Value) (k A B pa pb : Value) (level : Nat) :
    List HierarchyDifference × Option PyErr :=
  match A with
  | .list xs =>
      (match pyLen B with
       | .error e => ([], some e)
       | .ok lb =>
         let r := descentL stack (.list xs) B level 0 xs
         (if xs.length ≠ lb then
            ⟨stack, currentTop stack, .int (xs.length : Int), .int (lb : Int),
              pa, pb, level, "len"⟩ :: r.1
          else r.1, r.2))
  | .dict ps =>
      (match pyLen B with
       | .error e => ([], some e)
       | .ok lb =>
         let r := descentD stack (.dict ps) B level ps
         (if ps.length ≠ lb then
            ⟨stack, currentTop stack, .int (ps.length : Int), .int (lb : Int),
              pa, pb, level, "len"⟩ :: r.1
          else r.1, r.2))
  | a => if pyEq a B then ([], Option.none)
         else ([⟨stack, k, a, B, .none, .none, level, "value"⟩], Option.none)
termination_by sizeOf A
decreasing_by all_goals (simp_wf; try omega)

/-- The `for k, v in iterthing(a)` loop of `descent` for a list `A`,
processing the remaining elements of `A` starting at index `i`.
For each element the source distinguishes container values (recursive
descent inside `try/except IndexError`) from scalar values (direct
comparison inside `try/except KeyError`); `A[k]` during iteration over
`A`'s own `enumerate` is the iterated element itself. -/
def descentL (stack : List Value) (A B : Value) (level i : Nat) :
    List Value → List HierarchyDifference × Option PyErr
  | [] => ([], Option.none)
  | v :: vs =>
    if isContainer v then
      let kv : Value := .int (i : Int)
      let st2 := stack ++ [kv]
      match getItem B (.n i) with
      | .ok bk =>
        let r := descent st2 kv v bk A B (level + 1)
        match r.2 with
        | some .indexError =>
          let t := descentL stack A B level (i + 1) vs
          (r.1 ++ ⟨st2, kv, kv, .none, A, B, level, "index"⟩ :: t.1, t.2)
        | some e => (r.1, some e)
        | Option.none =>
          let t := descentL stack A B level (i + 1) vs
          (r.1 ++ t.1, t.2)
      | .error .indexError =>
        let t := descentL stack A B level (i + 1) vs
        (⟨st2, kv, kv, .none, A, B, level, "index"⟩ :: t.1, t.2)
      | .error e => ([], some e)
    else
      match getItem B (.n i) with
      | .ok bk =>
        let t := descentL stack A B level (i + 1) vs
        if pyEq v bk then t
        else (⟨stack, .int (i : Int), v, bk, A, B, level, "value"⟩ :: t.1, t.2)
      | .error .keyError =>
        let t := descentL stack A B level (i + 1) vs
        (⟨stack, .int (i : Int), .int (i : Int), .none, A, B, level, "key"⟩ :: t.1, t.2)
      | .error e => ([], some e)
termination_by l => sizeOf l
decreasing_by all_goals (simp_wf; try omega)

/-- The `for k, v in iterthing(a)` loop of `descent` for a dict `A`,
processing the remaining items of `A`. -/
def descentD (stack : List Value) (A B : Value) (level : Nat) :
    List (String × Value) → List HierarchyDifference × Option PyErr
  | [] => ([], Option.none)
  | (k, v) :: vs =>
    if isContainer v then
      let kv : Value := .str k
      let st2 := stack ++ [kv]
      match getItem B (.s k) with
      | .ok bk =>
        let r := descent st2 kv v bk A B (level + 1)
        match r.2 with
        | some .indexError =>
          let t := descentD stack A B level vs
          (r.1 ++ ⟨st2, kv, kv, .none, A, B, level, "index"⟩ :: t.1, t.2)
        | some e => (r.1, some e)
        | Option.none =>
          let t := descentD stack A B level vs
          (r.1 ++ t.1, t.2)
      | .error .indexError =>
        let t := descentD stack A B level vs
        (⟨st2, kv, kv, .none, A, B, level, "index"⟩ :: t.1, t.2)
      | .error e => ([], some e)
    else
      match getItem B (.s k) with
      | .ok bk =>
        let t := descentD stack A B level vs
        if pyEq v bk then t
        else (⟨stack, .str k, v, bk, A, B, level, "value"⟩ :: t.1, t.2)
      | .error .keyError =>
        let t := descentD stack A B level vs
        (⟨stack, .str k, .str k, .none, A, B, level, "key"⟩ :: t.1, t.2)
      | .error e => ([], some e)
termination_by l => sizeOf l
decreasing_by all_goals (simp_wf; try omega)
end

/-- `compare_hierarchy(a, b)`: the records the generator yields, paired
with the exception (if any) that escapes it. -/
def compareH (a b : Value) : List HierarchyDifference × Option PyErr :=
  descent [] .none a b .none .none 0

/-! ## Lemmas about `pyEq` and the diff -/

theorem pyEqList_length : ∀ xs ys : List Value, pyEqList xs ys = true → xs.length = ys.length := by
  intro xs
  induction xs with
  | nil =>
    intro ys h
    cases ys with
    | nil => rfl
    | cons y yr => simp [pyEqList] at h
  | cons x xr ih =>
    intro ys h
    cases ys with
    | nil => simp [pyEqList] at h
    | cons y yr =>
      simp only [pyEqList, Bool.and_eq_true] at h
      simp [ih yr h.2]

theorem pyEqFind_eq (k : String) (v : Value) :
    ∀ l : List (String × Value), pyEqFind k v l =
      (match lookupStr l k with | some w => pyEq v w | Option.none => false) := by
  intro l
  induction l with
  | nil => simp [pyEqFind, lookupStr]
  | cons p rest ih =>
    cases p with
    | mk k2 w =>
      by_cases hk : (k2 == k) = true
      · simp [pyEqFind, lookupStr, hk]
      · simp [pyEqFind, lookupStr, hk, ih]

/-- Every structurally equal pair of values produces an empty diff: the
core inductive lemma behind the claim about `compare(a, b)` with
`a == b`. -/
theorem descent_eq_nil : ∀ A : Value, ∀ stack k B pa pb level, pyEq A B = true →
    descent stack k A B pa pb level = ([], Option.none) := by
  intro A
  induction A using Value.induct with
  | hint n => intro stack k B pa pb level h; simp [descent, h]
  | hstr s => intro stack k B pa pb level h; simp [descent, h]
  | hnone => intro stack k B pa pb level h; simp [descent, h]
  | hlist xs ih =>
    intro stack k B pa pb level h
    cases B with
    | list ys =>
      have hpe : pyEqList xs ys = true := by simpa [pyEq] using h
      have hlen : xs.length = ys.length := pyEqList_length _ _ hpe
      have hL : ∀ (l : List Value), (∀ v ∈ l, v ∈ xs) → ∀ i st lv,
          pyEqList l (ys.drop i) = true →
          descentL st (.list xs) (.list ys) lv i l = ([], Option.none) := by
        intro l
        induction l with
        | nil => intro _ i st lv _; simp [descentL]
        | cons v vs ihl =>
          intro hsub i st lv hp
          have hi : i < ys.length := by
            by_contra hge
            rw [List.drop_eq_nil_of_le (by omega)] at hp
            simp [pyEqList] at hp
          rw [List.drop_eq_getElem_cons hi] at hp
          simp only [pyEqList, Bool.and_eq_true] at hp
          have hget : getItem (.list ys) (.n i) = .ok ys[i] := by simp [getItem, hi]
          have htail := ihl (fun u hu => hsub u (by simp [hu])) (i + 1) st lv hp.2
          by_cases hc : isContainer v = true
          · have hrec := ih v (hsub v (by simp)) (st ++ [Value.int (i : Int)])
              (Value.int (i : Int)) ys[i] (Value.list xs) (Value.list ys) (lv + 1) hp.1
            simp [descentL, hc, hget, hrec, htail]
          · simp [descentL, hc, hget, hp.1, htail]
      have := hL xs (fun v hv => hv) 0 stack level (by simpa using hpe)
      simp [descent, pyLen, hlen, this]
    | int m => simp [pyEq] at h
    | str s => simp [pyEq] at h
    | none => simp [pyEq] at h
    | dict ps => simp [pyEq] at h
  | hdict ps ih =>
    intro stack k B pa pb level h
    cases B with
    | dict qs =>
      have hlen : ps.length = qs.length := by
        simp only [pyEq, Bool.and_eq_true, beq_iff_eq] at h
        exact h.1
      have hpd : pyEqDict qs ps = true := by
        simp only [pyEq, Bool.and_eq_true] at h
        exact h.2
      have hD : ∀ (l : List (String × Value)), (∀ p ∈ l, p ∈ ps) → ∀ st lv,
          pyEqDict qs l = true →
          descentD st (.dict ps) (.dict qs) lv l = ([], Option.none) := by
        intro l
        induction l with
        | nil => intro _ st lv _; simp [descentD]
        | cons p rest ihl =>
          intro hsub st lv hp
          cases p with
          | mk ky v =>
            simp only [pyEqDict, Bool.and_eq_true] at hp
            have hfind := hp.1
            rw [pyEqFind_eq] at hfind
            match hw : lookupStr qs ky with
            | Option.none => rw [hw] at hfind; simp at hfind
            | some w =>
              rw [hw] at hfind
              simp only at hfind
              have hget : getItem (.dict qs) (.s ky) = .ok w := by simp [getItem, hw]
              have htail := ihl (fun u hu => hsub u (by simp [hu])) st lv hp.2
              by_cases hc : isContainer v = true
              · have hrec := ih (ky, v) (hsub (ky, v) (by simp)) (st ++ [Value.str ky])
                  (Value.str ky) w (Value.dict ps) (Value.dict qs) (lv + 1) hfind
                simp [descentD, hc, hget, hrec, htail]
              · simp [descentD, hc, hget, hfind, htail]
      have := hD ps (fun p hp => hp) stack level hpd
      simp [descent, pyLen, hlen, this]
    | int m => simp [pyEq] at h
    | str s => simp [pyEq] at h
    | none => simp [pyEq] at h
    | list xs => simp [pyEq] at h

/-! ## Supporting lemma for the driving-side claim about longer lists -/

/-- Iterating a run of scalar elements of `a` whose indices overrun `b`:
the loop compares the in-range elements (yielding only `value` records)
and then the `b[k]` lookup at the first out-of-range index raises an
`IndexError` that the scalar branch's `except KeyError` does not catch. -/
theorem descentL_scalar_overrun (st : List Value) (A : Value) (ys : List Value) (lv : Nat) :
    ∀ (xs : List Value) (i : Nat), (∀ v ∈ xs, isContainer v = false) →
    i ≤ ys.length → ys.length < i + xs.length →
    (descentL st A (.list ys) lv i xs).2 = some .indexError ∧
    ∀ r ∈ (descentL st A (.list ys) lv i xs).1, r.vtype = "value" := by
  intro xs
  induction xs with
  | nil => intro i _ h1 h2; simp at h2; omega
  | cons v vs ih =>
    intro i hs h1 h2
    have hcv : isContainer v = false := hs v (by simp)
    by_cases hi : i < ys.length
    · have hget : getItem (.list ys) (.n i) = .ok ys[i] := by simp [getItem, hi]
      obtain ⟨iht2, iht1⟩ := ih (i + 1) (fun u hu => hs u (by simp [hu]))
        (by omega) (by simp at h2 ⊢; omega)
      by_cases hpe : pyEq v ys[i] = true
      · simp only [descentL, hcv, Bool.false_eq_true, if_false, hget, hpe, if_true]
        exact ⟨iht2, iht1⟩
      · simp only [descentL, hcv, Bool.false_eq_true, if_false, hget, hpe]
        refine ⟨iht2, ?_⟩
        intro r hr
        simp only [List.mem_cons] at hr
        rcases hr with hr | hr
        · rw [hr]
        · exact iht1 r hr
    · have hieq : getItem (.list ys) (.n i) = .error .indexError := by
        simp [getItem]; omega
      simp [descentL, hcv, hieq]

/-! ## Claim theorems about `compare_hierarchy` -/

/-- C1 counterexample: `compare([1,2,3], [1,2])`, consumed fully, yields
exactly the `len`-kind record and then an `IndexError` escapes the
generator; no `index`-kind record for index 2 is ever produced, contrary
to the claim that the missing index is converted into a difference record
and that no exception is ever raised. -/
theorem compare_longer_list_raises :
    compareH (.list [.int 1, .int 2, .int 3]) (.list [.int 1, .int 2]) =
      ([⟨[], .none, .int 3, .int 2, .none, .none, 0, "len"⟩], some .indexError) ∧
    ∀ r ∈ (compareH (.list [.int 1, .int 2, .int 3]) (.list [.int 1, .int 2])).1,
      r.vtype ≠ "index" := by
  constructor
  · simp [compareH, descent, descentL, pyLen, getItem, pyEq, currentTop, isContainer]
  · intro r hr
    simp [compareH, descent, descentL, pyLen, getItem, pyEq, currentTop, isContainer] at hr
    rw [hr]
    simp

/-- C1 amended: for lists `a`, `b` with `a` longer than `b` and all values
of `a` scalars, `compare(a, b)` yields the `len`-kind record carrying both
lengths first, but the missing indices of `b` do not become `index`-kind
records: the lookup failure at the first index of `a` absent in `b`
escapes as an `IndexError` (the scalar branch catches only `KeyError`),
terminating the sequence. -/
theorem compare_longer_scalar_list (a b : List Value)
    (hs : ∀ v ∈ a, isContainer v = false) (hl : b.length < a.length) :
    (compareH (.list a) (.list b)).1.head? =
      some ⟨[], .none, .int (a.length : Int), .int (b.length : Int), .none, .none, 0, "len"⟩ ∧
    (compareH (.list a) (.list b)).2 = some .indexError ∧
    ∀ r ∈ (compareH (.list a) (.list b)).1, r.vtype = "len" ∨ r.vtype = "value" := by
  obtain ⟨h2, h1⟩ := descentL_scalar_overrun [] (.list a) b 0 a 0 hs (by omega) (by omega)
  have hne : a.length ≠ b.length := by omega
  refine ⟨?_, ?_, ?_⟩
  · simp [compareH, descent, pyLen, currentTop, hne]
  · simp [compareH, descent, pyLen, hne, h2]
  · intro r hr
    simp only [compareH, descent, pyLen, hne, ne_eq, not_false_iff, if_true,
      List.mem_cons] at hr
    rcases hr with hr | hr
    · left; rw [hr]
    · right; exact h1 r hr

/-- C1 amended, witnessed at the spec's own example input. -/
theorem compare_longer_scalar_list_witness :
    ((∀ v ∈ [Value.int 1, Value.int 2, Value.int 3], isContainer v = false) ∧
      ([Value.int 1, Value.int 2] : List Value).length <
        ([Value.int 1, Value.int 2, Value.int 3] : List Value).length) ∧
    ((compareH (.list [.int 1, .int 2, .int 3]) (.list [.int 1, .int 2])).1.head? =
      some ⟨[], .none, .int 3, .int 2, .none, .none, 0, "len"⟩ ∧
    (compareH (.list [.int 1, .int 2, .int 3]) (.list [.int 1, .int 2])).2 =
      some .indexError ∧
    ∀ r ∈ (compareH (.list [.int 1, .int 2, .int 3]) (.list [.int 1, .int 2])).1,
      r.vtype = "len" ∨ r.vtype = "value") :=
  ⟨⟨by intro v hv; fin_cases hv <;> rfl, by simp⟩,
    compare_longer_scalar_list _ _ (by intro v hv; fin_cases hv <;> rfl) (by simp)⟩

/-- C7: `compare({"x":1,"y":[1,2]}, {"x":1,"y":[1,3]})` yields exactly one
record, of `value` kind, with key `1`, `valueA = 2`, `valueB = 3`, whose
`key_path` at the moment of emission is `["y"]`. -/
theorem compare_nested_single_value_record :
    compareH (.dict [("x", .int 1), ("y", .list [.int 1, .int 2])])
      (.dict [("x", .int 1), ("y", .list [.int 1, .int 3])]) =
    ([⟨[.str "y"], .int 1, .int 2, .int 3, .list [.int 1, .int 2],
        .list [.int 1, .int 3], 1, "value"⟩], Option.none) := by
  simp [compareH, descent, descentL, descentD, pyLen, getItem, pyEq, pyEqList, pyEqDict,
    pyEqFind, lookupStr, currentTop, isContainer]

/-- C8: deeply equal values (Python `==`) produce an empty diff. -/
theorem compare_equal_nil (a b : Value) (h : pyEq a b = true) :
    compareH a b = ([], Option.none) :=
  descent_eq_nil a [] .none b .none .none 0 h

/-- C8 witnessed on a concrete nested pair. -/
theorem compare_equal_nil_witness :
    pyEq (.dict [("x", .list [.int 1, .int 2])]) (.dict [("x", .list [.int 1, .int 2])]) = true ∧
    compareH (.dict [("x", .list [.int 1, .int 2])])
      (.dict [("x", .list [.int 1, .int 2])]) = ([], Option.none) :=
  ⟨by simp [pyEq, pyEqDict, pyEqFind, pyEqList],
    compare_equal_nil _ _ (by simp [pyEq, pyEqDict, pyEqFind, pyEqList])⟩

/-- C10: the container test of `descent` inspects only its first argument;
for a non-container `a` the generator never descends into `b` and yields
exactly one `value`-kind record with `valueA = a`, `valueB = b` when
`a != b`, and nothing when `a == b`. -/
theorem compare_scalar_driver (a b : Value) (h : isContainer a = false) :
    compareH a b =
      (if pyEq a b then [] else [⟨[], .none, a, b, .none, .none, 0, "value"⟩],
        Option.none) := by
  cases a <;> simp [isContainer] at h <;> simp [compareH, descent] <;> split <;> rfl

/-- C10 witnessed at a scalar `a` against a container `b`. -/
theorem compare_scalar_driver_witness :
    isContainer (.int 5) = false ∧
    compareH (.int 5) (.list [.int 5]) =
      (if pyEq (.int 5) (.list [.int 5]) then []
       else [⟨[], .none, .int 5, .list [.int 5], .none, .none, 0, "value"⟩],
        Option.none) :=
  ⟨rfl, compare_scalar_driver _ _ rfl⟩

/-! ## Heap model of `HierarchyNode` and `HierarchyList`

`HierarchyNode` is a `dict` subclass carrying two instance attributes:
`_parent` (a node reference or `None`) and `children` (a reference to a
Python list object).  The constructor also stores the very same list
object inside the dict under the key `'children'`.  Python list objects
are mutable and aliased, so the embedding uses an explicit heap: node
objects and list objects live at addresses, and the `children` attribute
and the `'children'` dict entry each hold a list address (equal after
construction, but `HierarchyList.sort` rebinds only the attribute). -/

abbrev NodeId := Nat
abbrev ListId := Nat

/-- A `HierarchyNode` object: `_parent` attribute, `children` attribute
(list reference), the list reference stored under the `'children'` dict
key, and the remaining dict entries (empty for every node the
`HierarchyList` API creates). -/
structure NodeObj where
  parentAttr : Option NodeId
  childrenAttr : ListId
  dictChildren : ListId
  payload : List (String × Value)
deriving DecidableEq

instance : Inhabited NodeObj := ⟨⟨Option.none, 0, 0, []⟩⟩

/-- The object heap: node objects and list objects by address, plus
allocation counters. Later bindings shadow earlier ones. -/
structure Heap where
  nodes : List (NodeId × NodeObj)
  lists : List (ListId × List NodeId)
  nextNode : NodeId
  nextList : ListId
deriving DecidableEq

def getNode (h : Heap) (n : NodeId) : NodeObj := (h.nodes.lookup n).getD default

def getList (h : Heap) (r : ListId) : List NodeId := (h.lists.lookup r).getD []

def setNode (h : Heap) (n : NodeId) (o : NodeObj) : Heap :=
  { h with nodes := (n, o) :: h.nodes }

def setList (h : Heap) (r : ListId) (l : List NodeId) : Heap :=
  { h with lists := (r, l) :: h.lists }

/-- The `children` list object currently bound to the node's `children`
attribute (the list `HierarchyList.sort` and `_set_parent` operate on). -/
def content (h : Heap) (n : NodeId) : List NodeId :=
  getList h (getNode h n).childrenAttr

/-- `HierarchyNode()` with no constructor arguments (the only form the
`HierarchyList` API uses): allocates a fresh empty list, binds it to both
the `children` attribute and the `'children'` dict entry
(`rename_children`), leaves `_parent` as `None` (the initial
`self.parent = None` is a no-op since `None != None` is false) and the
payload empty. -/
def newNode (h : Heap) : Heap × NodeId :=
  let r := h.nextList
  let n := h.nextNode
  ({ nodes := (n, ⟨Option.none, r, r, []⟩) :: h.nodes,
     lists := (r, []) :: h.lists,
     nextNode := n + 1, nextList := r + 1 }, n)

/-- The Python value a node renders as when its dict is compared with
`==`: its payload entries plus the `'children'` entry — using the list
object stored in the dict, rendered recursively.  `fuel` bounds the
recursion; an acyclic structure of `n` live nodes renders fully with any
fuel above `n`, and Python itself diverges on cyclic ones. -/
def renderNode (h : Heap) : Nat → NodeId → Value
  | 0, _ => .str "<recursion>"
  | fuel + 1, n =>
    let o := getNode h n
    .dict (o.payload ++
      [("children", .list ((getList h o.dictChildren).map (renderNode h fuel)))])

/-- Python `==` between two nodes (dict value equality). -/
def pyNodeEq (h : Heap) (a b : NodeId) : Bool :=
  pyEq (renderNode h (h.nextNode + 1) a) (renderNode h (h.nextNode + 1) b)

/-- Python `!=` between `_parent`-typed operands (`None` or a node):
`None != None` is false, `None` differs from any node, and two nodes
compare as dicts. -/
def optNodeNe (h : Heap) : Option NodeId → Option NodeId → Bool
  | Option.none, Option.none => false
  | Option.none, some _ => true
  | some _, Option.none => true
  | some a, some b => !(pyNodeEq h a b)

/-- `list.remove(x)`: drops the first element `==`-equal to the target,
or fails (`ValueError`) when none is. -/
def removeEq (h : Heap) (target : NodeId) : List NodeId → Option (List NodeId)
  | [] => Option.none
  | x :: rest => if pyNodeEq h x target then some rest
                 else (removeEq h target rest).map (x :: ·)

/-- `HierarchyNode._set_parent`: when the new parent differs (Python
`!=`, i.e. dict value inequality) from the recorded one, remove `self`
from the old parent's `children` list (a node's dict always carries a
`'children'` key, so `if self._parent:` is exactly a `None` test),
rebind `_parent`, and append `self` to the new parent's `children` list
when the new parent is a node.  If `list.remove` finds no `==`-equal
element, the source logs an error and re-raises the `ValueError`:
modelled as `.error` carrying the logged message. -/
def set_parent (h : Heap) (self : NodeId) (parent : Option NodeId) : Except String Heap :=
  let o := getNode h self
  if optNodeNe h o.parentAttr parent then
    match o.parentAttr with
    | some p =>
      let pref := (getNode h p).childrenAttr
      (match removeEq h self (getList h pref) with
       | Option.none =>
         .error "HistoryNode has a parent, but the parent does not know about it"
       | some pl2 =>
         let h1 := setList h pref pl2
         let h2 := setNode h1 self { getNode h1 self with parentAttr := parent }
         match parent with
         | some q =>
           let qref := (getNode h2 q).childrenAttr
           .ok (setList h2 qref (getList h2 qref ++ [self]))
         | Option.none => .ok h2)
    | Option.none =>
      let h2 := setNode h self { o with parentAttr := parent }
      match parent with
      | some q =>
        let qref := (getNode h2 q).childrenAttr
        .ok (setList h2 qref (getList h2 qref ++ [self]))
      | Option.none => .ok h2
  else .ok h

/-- State of a `HierarchyList`: the heap, the list's own contents (the
roots), the id index `idx` (insertion-ordered) and the id set
`self.children` (insertion-ordered, duplicate-free). -/
structure HLState where
  heap : Heap
  roots : List NodeId
  idx : List (Nat × NodeId)
  childSet : List Nat
deriving DecidableEq

/-- Adds an id to the `children` id set. -/
def addId (s : List Nat) (i : Nat) : List Nat := if i ∈ s then s else s ++ [i]

/-- `HierarchyList.find_or_create_node`. -/
def find_or_create_node (st : HLState) (nid : Nat) : HLState × NodeId :=
  match st.idx.lookup nid with
  | some n => (st, n)
  | Option.none =>
    let p := newNode st.heap
    ({ st with heap := p.1, idx := st.idx ++ [(nid, p.2)] }, p.2)

/-- `HierarchyList.establish_node`: resolve or create the node, add its
id to the `children` id set unconditionally, then either attach it to
its (resolved-or-created) parent — `if n_parent_id:` is a truthiness
test, modelled by `Option` — or append it to the root list. -/
def establish_node (st : HLState) (nid : Nat) (pid : Option Nat) : Except String HLState :=
  let p1 := find_or_create_node st nid
  let st2 := { p1.1 with childSet := addId p1.1.childSet nid }
  match pid with
  | some pidv =>
    let p2 := find_or_create_node st2 pidv
    match set_parent p2.1.heap p1.2 (some p2.2) with
    | .ok h2 => .ok { p2.1 with heap := h2 }
    | .error e => .error e
  | Option.none => .ok { st2 with roots := st2.roots ++ [p1.2] }

/-- The empty `HierarchyList` before any item is consumed. -/
def emptyHL : HLState := ⟨⟨[], [], 0, 0⟩, [], [], []⟩

/-- The `for item in iterable:` loop of the `HierarchyList` constructor,
starting from an intermediate state. -/
def buildFrom (st : HLState) : List (Nat × Option Nat) → Except String HLState
  | [] => .ok st
  | it :: rest =>
    match establish_node st it.1 it.2 with
    | .ok st2 => buildFrom st2 rest
    | .error e => .error e

/-- `HierarchyList(iterable)` over already-extracted `(id, parent_id)`
pairs (the two accessor functions applied to each item; the optional
enrichment callback is not modelled). -/
def buildHL (items : List (Nat × Option Nat)) : Except String HLState :=
  buildFrom emptyHL items

/-- The `parents` property: ids in `idx` that are not in the `children`
id set. -/
def parentsProp (st : HLState) : List Nat :=
  (st.idx.map Prod.fst).filter (fun i => decide (i ∉ st.childSet))

/-- Evaluates the optional `filter_fun` (`None` is falsy). -/
def evalF (ff : Option (NodeId → Nat → Bool)) (c : NodeId) (d : Nat) : Bool :=
  match ff with
  | some f => f c d
  | Option.none => false

/-- The recursive `descent` of `HierarchyList.list_generator`: pre-order
over `itemlist`, yielding each unfiltered node and recursing into its
`children` attribute only while the remaining depth is positive. -/
def list_generator (h : Heap) (ff : Option (NodeId → Nat → Bool)) (fc : Bool) :
    Nat → List NodeId → List NodeId
  | _, [] => []
  | 0, c :: rest =>
    (if evalF ff c 0 then ([] : List NodeId) else [c]) ++ list_generator h ff fc 0 rest
  | depth + 1, c :: rest =>
    let filtered := evalF ff c (depth + 1)
    (if filtered then ([] : List NodeId) else [c]) ++
    (if !filtered || !fc then list_generator h ff fc depth (content h c) else []) ++
    list_generator h ff fc (depth + 1) rest
termination_by d l => (d, l.length)

/-- Stable insertion of `x` into `l`: `x` goes before the first element
not strictly preceding it. -/
def insertK (lt : NodeId → NodeId → Bool) (x : NodeId) : List NodeId → List NodeId
  | [] => [x]
  | y :: ys => if lt y x then y :: insertK lt x ys else x :: y :: ys

/-- The strict comparison `sorted(key=key, reverse=reverse)` orders by. -/
def ltK (key : NodeId → Int) (rev : Bool) (a b : NodeId) : Bool :=
  if rev then decide (key b < key a) else decide (key a < key b)

/-- Python's `sorted(l, key=key, reverse=reverse)` / `list.sort`: the
unique stable sort by that key, embedded as insertion sort. -/
def pyKeySort (key : NodeId → Int) (rev : Bool) (l : List NodeId) : List NodeId :=
  l.foldr (insertK (ltK key rev)) []

/-- Allocates a fresh list object holding `l` and rebinds the node's
`children` attribute to it (`child.children = sorted(...)`); the
`'children'` dict entry keeps pointing at the old list object. -/
def allocAssign (h : Heap) (c : NodeId) (l : List NodeId) : Heap :=
  let r := h.nextList
  let h1 := { h with lists := (r, l) :: h.lists, nextList := r + 1 }
  setNode h1 c { getNode h1 c with childrenAttr := r }

/-- The recursive `descent` of `HierarchyList.sort`: for each node with a
non-empty `children` attribute, rebind the attribute to a freshly sorted
list and recurse into it, then continue with the siblings.  `fuel`
bounds the recursion depth (the source recursion is unbounded; any fuel
at least the tree depth is exact). -/
def sortChildren (key : NodeId → Int) (rev : Bool) : Nat → Heap → List NodeId → Heap
  | 0, h, _ => h
  | _ + 1, h, [] => h
  | fuel + 1, h, c :: rest =>
    let cl := content h c
    if cl = [] then sortChildren key rev (fuel + 1) h rest
    else
      let h1 := allocAssign h c (pyKeySort key rev cl)
      let h2 := sortChildren key rev fuel h1 (pyKeySort key rev cl)
      sortChildren key rev (fuel + 1) h2 rest
termination_by fuel _ l => (fuel, l.length)

/-- `HierarchyList.sort(key, reverse)`: stable-sort the top-level list in
place, then descend over the (now sorted) roots. -/
def sortAllModel (key : NodeId → Int) (rev : Bool) (st : HLState) : HLState :=
  let r2 := pyKeySort key rev st.roots
  { st with roots := r2, heap := sortChildren key rev st.heap.nextNode st.heap r2 }

/-! ## Basic heap lemmas -/

theorem getNode_setNode_self (h : Heap) (n : NodeId) (o : NodeObj) :
    getNode (setNode h n o) n = o := by
  simp [getNode, setNode]

theorem getNode_setNode_ne (h : Heap) (n m : NodeId) (o : NodeObj) (hne : m ≠ n) :
    getNode (setNode h n o) m = getNode h m := by
  have hb : (m == n) = false := beq_eq_false_iff_ne.mpr hne
  simp [getNode, setNode, List.lookup, hb]

theorem getList_setNode (h : Heap) (n : NodeId) (o : NodeObj) (r : ListId) :
    getList (setNode h n o) r = getList h r := by
  simp [getList, setNode]

theorem getNode_setList (h : Heap) (r : ListId) (l : List NodeId) (n : NodeId) :
    getNode (setList h r l) n = getNode h n := by
  simp [getNode, setList]

theorem getList_setList_self (h : Heap) (r : ListId) (l : List NodeId) :
    getList (setList h r l) r = l := by
  simp [getList, setList]

theorem getList_setList_ne (h : Heap) (r q : ListId) (l : List NodeId) (hne : q ≠ r) :
    getList (setList h r l) q = getList h q := by
  have hb : (q == r) = false := beq_eq_false_iff_ne.mpr hne
  simp [getList, setList, List.lookup, hb]

theorem removeEq_length (h : Heap) (t : NodeId) :
    ∀ l l2, removeEq h t l = some l2 → l2.length + 1 = l.length := by
  intro l
  induction l with
  | nil => intro l2 hl; simp [removeEq] at hl
  | cons x rest ih =>
    intro l2 hl
    by_cases hx : pyNodeEq h x t = true
    · simp [removeEq, hx] at hl; subst hl; rfl
    · simp [removeEq, hx] at hl
      obtain ⟨l3, h3, hl3⟩ := hl
      subst hl3
      simp [ih l3 h3]

theorem removeEq_some_of_any (h : Heap) (t : NodeId) :
    ∀ l, l.any (fun x => pyNodeEq h x t) = true → ∃ l2, removeEq h t l = some l2 := by
  intro l
  induction l with
  | nil => intro ha; simp at ha
  | cons x rest ih =>
    intro ha
    by_cases hx : pyNodeEq h x t = true
    · exact ⟨rest, by simp [removeEq, hx]⟩
    · simp [hx] at ha
      obtain ⟨l2, h2⟩ := ih (List.any_eq_true.mpr ha)
      exact ⟨x :: l2, by simp [removeEq, hx, h2]⟩

/-! ## Concrete built states -/

/-- The state `HierarchyList` builds from the single item `(id 1, no
parent id)`. -/
def S1 : HLState :=
  ⟨⟨[(0, ⟨Option.none, 0, 0, []⟩)], [(0, [])], 1, 1⟩, [0], [(1, 0)], [1]⟩

theorem buildHL_S1 : buildHL [(1, Option.none)] = .ok S1 := rfl

/-- The state built from `[(10, parent 1), (11, parent 2)]`: node 0
(item 10) is a child of placeholder node 1, node 2 (item 11) a child of
placeholder node 3; nodes 1 and 3 are distinct objects with equal dict
values, as are nodes 0 and 2. -/
def S2 : HLState :=
  ⟨⟨[(2, ⟨some 3, 2, 2, []⟩),
     (3, ⟨Option.none, 3, 3, []⟩),
     (2, ⟨Option.none, 2, 2, []⟩),
     (0, ⟨some 1, 0, 0, []⟩),
     (1, ⟨Option.none, 1, 1, []⟩),
     (0, ⟨Option.none, 0, 0, []⟩)],
    [(3, [2]), (3, []), (2, []), (1, [0]), (1, []), (0, [])], 4, 4⟩,
   [], [(10, 0), (1, 1), (11, 2), (2, 3)], [10, 11]⟩

theorem buildHL_S2 : buildHL [(10, some 1), (11, some 2)] = .ok S2 := rfl

/-- The state built from `[(1, root), (2, parent 1), (3, parent 1)]`:
node 0 (item 1) is the root with children `[1, 2]` (items 2 and 3). -/
def S3 : HLState :=
  ⟨⟨[(2, ⟨some 0, 2, 2, []⟩),
     (2, ⟨Option.none, 2, 2, []⟩),
     (1, ⟨some 0, 1, 1, []⟩),
     (1, ⟨Option.none, 1, 1, []⟩),
     (0, ⟨Option.none, 0, 0, []⟩)],
    [(0, [1, 2]), (2, []), (0, [1]), (1, []), (0, [])], 3, 3⟩,
   [0], [(1, 0), (2, 1), (3, 2)], [1, 2, 3]⟩

theorem buildHL_S3 : buildHL [(1, Option.none), (2, some 1), (3, some 1)] = .ok S3 := rfl

/-! ## Claim theorems about construction (`childrenIds` / `parents`) -/

theorem mem_addId (s : List Nat) (i j : Nat) : j ∈ addId s i ↔ j ∈ s ∨ j = i := by
  by_cases hi : i ∈ s
  · simp only [addId, hi, if_true]
    constructor
    · exact fun hj => Or.inl hj
    · rintro (hj | rfl)
      · exact hj
      · exact hi
  · simp [addId, hi]

theorem find_or_create_childSet (st : HLState) (nid : Nat) :
    (find_or_create_node st nid).1.childSet = st.childSet := by
  unfold find_or_create_node
  cases st.idx.lookup nid <;> rfl

theorem establish_childSet (st : HLState) (nid : Nat) (pid : Option Nat) (st2 : HLState)
    (h : establish_node st nid pid = .ok st2) :
    st2.childSet = addId st.childSet nid := by
  unfold establish_node at h
  cases pid with
  | none =>
    simp only [Except.ok.injEq] at h
    rw [← h]
    simp [find_or_create_childSet]
  | some pidv =>
    simp only at h
    cases hs : set_parent (find_or_create_node
        { (find_or_create_node st nid).1 with
          childSet := addId (find_or_create_node st nid).1.childSet nid } pidv).1.heap
        (find_or_create_node st nid).2
        (some (find_or_create_node
          { (find_or_create_node st nid).1 with
            childSet := addId (find_or_create_node st nid).1.childSet nid } pidv).2) with
    | error e => rw [hs] at h; simp at h
    | ok h2 =>
      rw [hs] at h
      simp only [Except.ok.injEq] at h
      rw [← h]
      simp [find_or_create_childSet]

theorem buildFrom_childSet_mem : ∀ (items : List (Nat × Option Nat)) (st0 st : HLState),
    buildFrom st0 items = .ok st →
    ∀ i, i ∈ st.childSet ↔ i ∈ st0.childSet ∨ i ∈ items.map Prod.fst := by
  intro items
  induction items with
  | nil =>
    intro st0 st h i
    simp only [buildFrom, Except.ok.injEq] at h
    cases h
    simp
  | cons it rest ih =>
    intro st0 st h i
    simp only [buildFrom] at h
    cases he : establish_node st0 it.1 it.2 with
    | error e => rw [he] at h; simp at h
    | ok st1 =>
      rw [he] at h
      have hc := establish_childSet _ _ _ _ he
      rw [ih st1 st h i, hc, mem_addId]
      cases it
      simp
      tauto

/-- C2 counterexample: building from the single item `(id 1, no parent
id)` records `1` in the `children` id set even though the item is
attached to no parent, and the `parents` property comes out empty — it
does not contain the id of this item that had no parent id. -/
theorem childSet_unconditional_cex :
    (buildHL [(1, Option.none)]).map (fun st => (st.childSet, parentsProp st)) =
      .ok ([1], []) := by
  rw [buildHL_S1]
  rfl

/-- C2 amended: `establish_node` records every item's id in the
`children` id set unconditionally, whether or not the item carries a
parent id; consequently the `parents` property is the set of ids in
`idx` that were never themselves supplied as an item — the placeholder
parents — and not the set of parentless items. -/
theorem childSet_records_all_items (items : List (Nat × Option Nat)) (st : HLState)
    (h : buildHL items = .ok st) :
    (∀ i, i ∈ st.childSet ↔ i ∈ items.map Prod.fst) ∧
    (∀ i, i ∈ parentsProp st ↔ i ∈ st.idx.map Prod.fst ∧ i ∉ items.map Prod.fst) := by
  have hm := buildFrom_childSet_mem items emptyHL st h
  have hm2 : ∀ i, i ∈ st.childSet ↔ i ∈ items.map Prod.fst := by
    intro i
    rw [hm i]
    simp [emptyHL]
  refine ⟨hm2, ?_⟩
  intro i
  simp only [parentsProp, List.mem_filter, decide_eq_true_iff]
  rw [hm2 i]

/-- C2 amended, witnessed on the single parentless item. -/
theorem childSet_records_all_items_witness :
    buildHL [(1, Option.none)] = .ok S1 ∧
    ((∀ i, i ∈ S1.childSet ↔
        i ∈ ([(1, Option.none)] : List (Nat × Option Nat)).map Prod.fst) ∧
     (∀ i, i ∈ parentsProp S1 ↔
        i ∈ S1.idx.map Prod.fst ∧
          i ∉ ([(1, Option.none)] : List (Nat × Option Nat)).map Prod.fst)) :=
  ⟨buildHL_S1, childSet_records_all_items _ _ buildHL_S1⟩

/-! ## Claim theorems about `_set_parent` -/

/-- C3 counterexample: in the state built from
`[(10, parent 1), (11, parent 2)]`, node 0 sits in the children of its
parent node 1, and node 3 is a node distinct from node 1 — but equal to
it as a dict.  Assigning `node0.parent = node3` is a complete no-op
(`self._parent != parent` is Python dict value inequality), so node 1's
children list keeps its one element instead of shrinking to zero and
node 3's children list gains nothing. -/
theorem reparent_value_equality_noop :
    buildHL [(10, some 1), (11, some 2)] = .ok S2 ∧
    (1 : NodeId) ≠ 3 ∧
    (getNode S2.heap 0).parentAttr = some 1 ∧
    content S2.heap 1 = [0] ∧
    pyNodeEq S2.heap 1 3 = true ∧
    set_parent S2.heap 0 (some 3) = .ok S2.heap := by
  have hpn : pyNodeEq S2.heap 1 3 = true := by
    unfold pyNodeEq
    rw [show renderNode S2.heap (S2.heap.nextNode + 1) 1 =
          .dict [("children", .list [.dict [("children", .list [])]])] from rfl]
    rw [show renderNode S2.heap (S2.heap.nextNode + 1) 3 =
          .dict [("children", .list [.dict [("children", .list [])]])] from rfl]
    simp [pyEq, pyEqList, pyEqDict, pyEqFind, lookupStr]
  have hguard : optNodeNe S2.heap (getNode S2.heap 0).parentAttr (some 3) = false := by
    rw [show (getNode S2.heap 0).parentAttr = some 1 from rfl]
    simp [optNodeNe, hpn]
  refine ⟨buildHL_S2, by decide, rfl, rfl, hpn, ?_⟩
  simp [set_parent, hguard]

/-- The heap on `_set_parent`'s removal-then-append path (proof-side
abbreviation for the value the unfolding produces). -/
def reparentHeap (h : Heap) (n : NodeId) (pl2 : List NodeId) (P Q : NodeId) : Heap :=
  let h1 := setList h (getNode h P).childrenAttr pl2
  let h2 := setNode h1 n { getNode h1 n with parentAttr := some Q }
  setList h2 (getNode h2 Q).childrenAttr (getList h2 (getNode h2 Q).childrenAttr ++ [n])

/-- C3 amended: when the new parent `Q` is a node that is *not* dict-equal
to the recorded parent `P` of `n`, some element `==`-equal to `n` is in
`P`'s children and `P`'s and `Q`'s children are different list objects,
the assignment removes the first `==`-equal element from `P`'s children
(its length drops by exactly one) and appends `n` to `Q`'s children (its
length grows by exactly one). -/
theorem reparent_moves_child (h : Heap) (n P Q : NodeId)
    (hpar : (getNode h n).parentAttr = some P)
    (hne : pyNodeEq h P Q = false)
    (hfound : (content h P).any (fun x => pyNodeEq h x n) = true)
    (hrefs : (getNode h P).childrenAttr ≠ (getNode h Q).childrenAttr) :
    ∃ h2, set_parent h n (some Q) = .ok h2 ∧
      (content h2 P).length + 1 = (content h P).length ∧
      content h2 Q = content h Q ++ [n] := by
  obtain ⟨pl2, hrem⟩ := removeEq_some_of_any h n _ hfound
  have hlen := removeEq_length h n _ _ hrem
  have hguard : optNodeNe h (some P) (some Q) = true := by
    simp [optNodeNe, hne]
  have hsp : set_parent h n (some Q) = .ok (reparentHeap h n pl2 P Q) := by
    simp only [set_parent, reparentHeap, hguard, hpar, eq_self_iff_true, if_true,
      show getList h (getNode h P).childrenAttr = content h P from rfl, hrem]
  have hattr2 : ∀ m : NodeId,
      (getNode (setNode (setList h (getNode h P).childrenAttr pl2) n
        { parentAttr := some Q, childrenAttr := (getNode h n).childrenAttr,
          dictChildren := (getNode h n).dictChildren,
          payload := (getNode h n).payload }) m).childrenAttr
        = (getNode h m).childrenAttr := by
    intro m
    by_cases hmn : m = n
    · subst hmn; rw [getNode_setNode_self]
    · rw [getNode_setNode_ne _ _ _ _ hmn, getNode_setList]
  have hcontP : content (reparentHeap h n pl2 P Q) P = pl2 := by
    simp only [reparentHeap, content, getNode_setList, hattr2, getList_setNode]
    rw [getList_setList_ne _ _ _ _ hrefs, getList_setNode, getList_setList_self]
  have hcontQ : content (reparentHeap h n pl2 P Q) Q = content h Q ++ [n] := by
    simp only [reparentHeap, content, getNode_setList, hattr2, getList_setNode]
    rw [getList_setList_self, getList_setList_ne _ _ _ _ hrefs.symm]
  exact ⟨reparentHeap h n pl2 P Q, hsp, by rw [hcontP]; exact hlen, hcontQ⟩

/-- C3 amended, witnessed: in the three-item state, node 1 (a child of
node 0) is reassigned to parent node 2; node 0's children shrink from
`[1, 2]` to one element and node 2's grow from `[]` to one. -/
theorem reparent_moves_child_witness :
    ((getNode S3.heap 1).parentAttr = some 0 ∧
     pyNodeEq S3.heap 0 2 = false ∧
     (content S3.heap 0).any (fun x => pyNodeEq S3.heap x 1) = true ∧
     (getNode S3.heap 0).childrenAttr ≠ (getNode S3.heap 2).childrenAttr) ∧
    (∃ h2, set_parent S3.heap 1 (some 2) = .ok h2 ∧
      (content h2 0).length + 1 = (content S3.heap 0).length ∧
      content h2 2 = content S3.heap 2 ++ [1]) := by
  have h1 : pyNodeEq S3.heap 0 2 = false := by
    unfold pyNodeEq
    rw [show renderNode S3.heap (S3.heap.nextNode + 1) 0 =
          .dict [("children", .list [.dict [("children", .list [])],
            .dict [("children", .list [])]])] from rfl]
    rw [show renderNode S3.heap (S3.heap.nextNode + 1) 2 =
          .dict [("children", .list [])] from rfl]
    simp [pyEq, pyEqList, pyEqDict, pyEqFind, lookupStr]
  have hrr : pyNodeEq S3.heap 1 1 = true := by
    unfold pyNodeEq
    rw [show renderNode S3.heap (S3.heap.nextNode + 1) 1 =
          .dict [("children", .list [])] from rfl]
    simp [pyEq, pyEqList, pyEqDict, pyEqFind, lookupStr]
  have h2 : (content S3.heap 0).any (fun x => pyNodeEq S3.heap x 1) = true := by
    rw [show content S3.heap 0 = [1, 2] from rfl]
    simp [hrr]
  exact ⟨⟨rfl, h1, h2, by decide⟩, reparent_moves_child S3.heap 1 0 2 rfl h1 h2 (by decide)⟩

/-- C9: when a node's recorded parent does not hold any `==`-equal element
in its children list, reassigning the parent fails loudly: the source
logs the inconsistency and re-raises the `ValueError` from
`list.remove`, modelled as the error result carrying the logged
message. -/
theorem reparent_inconsistency_raises (h : Heap) (n P : NodeId) (newP : Option NodeId)
    (hpar : (getNode h n).parentAttr = some P)
    (hne : optNodeNe h (some P) newP = true)
    (hmiss : removeEq h n (content h P) = Option.none) :
    set_parent h n newP =
      .error "HistoryNode has a parent, but the parent does not know about it" := by
  simp only [set_parent, hpar, hne, eq_self_iff_true, if_true,
    show getList h (getNode h P).childrenAttr = content h P from rfl, hmiss]

/-- A heap corrupted out of band: node 0 records node 1 as its parent,
but node 1's children list is empty. -/
def corruptHeap : Heap :=
  ⟨[(0, ⟨some 1, 0, 0, []⟩), (1, ⟨Option.none, 1, 1, []⟩)], [(0, []), (1, [])], 2, 2⟩

/-- C9 witnessed on the corrupted heap. -/
theorem reparent_inconsistency_raises_witness :
    ((getNode corruptHeap 0).parentAttr = some 1 ∧
     optNodeNe corruptHeap (some 1) Option.none = true ∧
     removeEq corruptHeap 0 (content corruptHeap 1) = Option.none) ∧
    set_parent corruptHeap 0 Option.none =
      .error "HistoryNode has a parent, but the parent does not know about it" :=
  ⟨⟨rfl, rfl, rfl⟩, reparent_inconsistency_raises _ _ _ _ rfl rfl rfl⟩

/-! ## Claim theorems about traversal depth -/

/-- Nodes exactly `k` levels below the nodes of the given list,
following the `children` attribute. -/
def levelNodes (h : Heap) : Nat → List NodeId → List NodeId
  | 0, l => l
  | k + 1, l => levelNodes h k (l.flatMap (content h))

theorem levelNodes_append (h : Heap) :
    ∀ (k : Nat) (l1 l2 : List NodeId),
      levelNodes h k (l1 ++ l2) = levelNodes h k l1 ++ levelNodes h k l2 := by
  intro k
  induction k with
  | zero => intro l1 l2; rfl
  | succ k ih =>
    intro l1 l2
    simp only [levelNodes, List.flatMap_append, ih]

theorem levelNodes_mono_cons (h : Heap) (k : Nat) (c : NodeId) (rest : List NodeId)
    (x : NodeId) (hx : x ∈ levelNodes h k rest) : x ∈ levelNodes h k (c :: rest) := by
  cases k with
  | zero => simp [levelNodes] at hx ⊢; right; exact hx
  | succ k2 =>
    simp only [levelNodes, List.flatMap_cons, levelNodes_append] at hx ⊢
    exact List.mem_append_right _ hx

theorem lg_depth_zero (h : Heap) (fc : Bool) :
    ∀ l, list_generator h Option.none fc 0 l = l := by
  intro l
  induction l with
  | nil => simp [list_generator]
  | cons c rest ih => simp [list_generator, evalF, ih]

theorem lg_levels (h : Heap) (fc : Bool) :
    ∀ (N : Nat) (l : List NodeId) (x : NodeId),
      x ∈ list_generator h Option.none fc N l → ∃ L ≤ N, x ∈ levelNodes h L l := by
  intro N
  induction N with
  | zero =>
    intro l x hx
    rw [lg_depth_zero] at hx
    exact ⟨0, le_rfl, hx⟩
  | succ N ih =>
    intro l
    induction l with
    | nil => intro x hx; simp [list_generator] at hx
    | cons c rest ihl =>
      intro x hx
      simp only [list_generator, evalF, Bool.not_false, Bool.true_or, if_true,
        Bool.false_eq_true, if_false, List.singleton_append, List.mem_cons,
        List.mem_append] at hx
      rcases hx with (rfl | hx) | hx
      · exact ⟨0, Nat.zero_le _, by simp [levelNodes]⟩
      · obtain ⟨L, hL, hmem⟩ := ih (content h c) x hx
        refine ⟨L + 1, by omega, ?_⟩
        simp only [levelNodes, List.flatMap_cons, levelNodes_append]
        exact List.mem_append_left _ hmem
      · obtain ⟨L, hL, hmem⟩ := ihl x hx
        exact ⟨L, hL, levelNodes_mono_cons h L c rest x hmem⟩

theorem lg_sublist (h : Heap) (fc : Bool) :
    ∀ (M N : Nat), N ≤ M → ∀ l,
      (list_generator h Option.none fc N l).Sublist
        (list_generator h Option.none fc M l) := by
  intro M
  induction M with
  | zero =>
    intro N hN l
    have hN0 : N = 0 := by omega
    subst hN0
    exact List.Sublist.refl _
  | succ M ih =>
    intro N hN l
    induction l with
    | nil => cases N <;> simp [list_generator]
    | cons c rest ihl =>
      cases N with
      | zero =>
        simp only [list_generator, evalF, Bool.not_false, Bool.true_or, if_true,
          Bool.false_eq_true, if_false, List.singleton_append]
        refine List.Sublist.cons₂ _ ?_
        exact ihl.trans (List.sublist_append_right _ _)
      | succ N2 =>
        have hN2 : N2 ≤ M := by omega
        simp only [list_generator, evalF, Bool.not_false, Bool.true_or, if_true,
          Bool.false_eq_true, if_false, List.singleton_append]
        exact List.Sublist.cons₂ _
          (List.Sublist.append (ih N2 hN2 (content h c)) ihl)

/-- C5: with no filter, `list_generator(depth=0)` yields exactly the
top-level sequence; `list_generator(depth=N)` yields only nodes at most
`N` levels below the top-level sequence; and raising the depth bound
only inserts nodes into the yielded sequence (each bounded traversal is
an order-preserving subsequence of every deeper one), which is the
pre-order consistency of the depth-bounded descent. -/
theorem traverse_depth_bounded (h : Heap) (fc : Bool) (l : List NodeId) (N M : Nat)
    (hNM : N ≤ M) :
    list_generator h Option.none fc 0 l = l ∧
    (∀ x ∈ list_generator h Option.none fc N l, ∃ L ≤ N, x ∈ levelNodes h L l) ∧
    (list_generator h Option.none fc N l).Sublist (list_generator h Option.none fc M l) :=
  ⟨lg_depth_zero h fc l, fun x hx => lg_levels h fc N l x hx, lg_sublist h fc M N hNM l⟩

/-- C5 witnessed on the three-item tree at depths 1 ≤ 2. -/
theorem traverse_depth_bounded_witness :
    (1 : Nat) ≤ 2 ∧
    (list_generator S3.heap Option.none true 0 [0] = [0] ∧
     (∀ x ∈ list_generator S3.heap Option.none true 1 [0],
        ∃ L ≤ 1, x ∈ levelNodes S3.heap L [0]) ∧
     (list_generator S3.heap Option.none true 1 [0]).Sublist
       (list_generator S3.heap Option.none true 2 [0])) :=
  ⟨by decide, traverse_depth_bounded S3.heap true [0] 1 2 (by decide)⟩

/-! ## Claim theorem about the `children` aliasing invariant -/

/-- C4: the invariant fails under `sort`.  In the three-item state the
root's `children` attribute and its `'children'` dict entry are the same
list object; after `sort` with a key that swaps the two children, the
attribute points at a fresh sorted list while the dict entry keeps the
old, still unsorted list object — the node's mapping no longer exposes
its `children` sequence. -/
theorem sort_detaches_children_entry :
    buildHL [(1, Option.none), (2, some 1), (3, some 1)] = .ok S3 ∧
    (getNode S3.heap 0).childrenAttr = (getNode S3.heap 0).dictChildren ∧
    ((getNode (sortAllModel (fun n => -(n : Int)) false S3).heap 0).childrenAttr ≠
      (getNode (sortAllModel (fun n => -(n : Int)) false S3).heap 0).dictChildren ∧
     getList (sortAllModel (fun n => -(n : Int)) false S3).heap
       (getNode (sortAllModel (fun n => -(n : Int)) false S3).heap 0).childrenAttr = [2, 1] ∧
     getList (sortAllModel (fun n => -(n : Int)) false S3).heap
       (getNode (sortAllModel (fun n => -(n : Int)) false S3).heap 0).dictChildren = [1, 2]) := by
  refine ⟨buildHL_S3, rfl, ?_⟩
  simp [sortAllModel, sortChildren, allocAssign, pyKeySort, insertK, ltK, content,
    getList, getNode, setNode, List.lookup, S3]

/-! ## Lemmas about the stable key sort -/

theorem ltK_true_ne (key : NodeId → Int) (rev : Bool) (y x : NodeId)
    (h : ltK key rev y x = true) : key y ≠ key x := by
  unfold ltK at h
  cases rev <;> simp at h <;> omega

theorem ltK_asymm (key : NodeId → Int) (rev : Bool) (y x : NodeId)
    (h : ltK key rev y x = true) : ltK key rev x y = false := by
  unfold ltK at h ⊢
  cases rev <;> simp at h ⊢ <;> omega

theorem ltK_false_trans (key : NodeId → Int) (rev : Bool) (x y z : NodeId)
    (h1 : ltK key rev y x = false) (h2 : ltK key rev z y = false) :
    ltK key rev z x = false := by
  unfold ltK at h1 h2 ⊢
  cases rev <;> simp at h1 h2 ⊢ <;> omega

theorem length_insertK (lt : NodeId → NodeId → Bool) (x : NodeId) :
    ∀ l, (insertK lt x l).length = l.length + 1 := by
  intro l
  induction l with
  | nil => rfl
  | cons y ys ih =>
    by_cases hy : lt y x = true
    · simp [insertK, hy, ih]
    · simp [insertK, hy]

theorem pyKeySort_length (key : NodeId → Int) (rev : Bool) :
    ∀ l, (pyKeySort key rev l).length = l.length := by
  intro l
  induction l with
  | nil => rfl
  | cons x xs ih => simp [pyKeySort, length_insertK, List.foldr] at ih ⊢; omega

theorem pyKeySort_ne_nil (key : NodeId → Int) (rev : Bool) (l : List NodeId)
    (h : l ≠ []) : pyKeySort key rev l ≠ [] := by
  intro hc
  have h1 := pyKeySort_length key rev l
  rw [hc] at h1
  cases l with
  | nil => exact h rfl
  | cons x xs => simp at h1

theorem mem_insertK (lt : NodeId → NodeId → Bool) (x : NodeId) :
    ∀ l z, z ∈ insertK lt x l → z = x ∨ z ∈ l := by
  intro l
  induction l with
  | nil => intro z hz; simp [insertK] at hz; exact Or.inl hz
  | cons y ys ih =>
    intro z hz
    by_cases hy : lt y x = true
    · simp only [insertK, hy, if_true, List.mem_cons] at hz
      rcases hz with rfl | hz
      · exact Or.inr (by simp)
      · rcases ih z hz with hz2 | hz2
        · exact Or.inl hz2
        · exact Or.inr (by simp [hz2])
    · simp only [insertK, hy, if_false, Bool.false_eq_true, List.mem_cons] at hz
      rcases hz with rfl | hz
      · exact Or.inl rfl
      · exact Or.inr (List.mem_cons.mpr hz)

theorem filter_insertK_pos (key : NodeId → Int) (rev : Bool) (k : Int) (x : NodeId)
    (hx : key x = k) :
    ∀ l, (insertK (ltK key rev) x l).filter (fun z => decide (key z = k)) =
      x :: l.filter (fun z => decide (key z = k)) := by
  intro l
  induction l with
  | nil => simp [insertK, hx]
  | cons y ys ih =>
    by_cases hy : ltK key rev y x = true
    · have hne : key y ≠ key x := ltK_true_ne key rev y x hy
      have hyk : ¬(key y = k) := by omega
      simp only [insertK, hy, if_true, List.filter_cons]
      simp [hyk, ih]
    · simp only [insertK, hy, if_false, Bool.false_eq_true, List.filter_cons]
      simp [hx]

theorem filter_insertK_neg (key : NodeId → Int) (rev : Bool) (k : Int) (x : NodeId)
    (hx : key x ≠ k) :
    ∀ l, (insertK (ltK key rev) x l).filter (fun z => decide (key z = k)) =
      l.filter (fun z => decide (key z = k)) := by
  intro l
  induction l with
  | nil => simp [insertK, hx]
  | cons y ys ih =>
    by_cases hy : ltK key rev y x = true
    · simp only [insertK, hy, if_true, List.filter_cons]
      rw [ih]
    · simp only [insertK, hy, if_false, Bool.false_eq_true, List.filter_cons]
      simp [hx]

/-- Stability of the key sort: the subsequence of elements with any given
key value is exactly preserved. -/
theorem pyKeySort_filter_key (key : NodeId → Int) (rev : Bool) (k : Int) :
    ∀ l, (pyKeySort key rev l).filter (fun z => decide (key z = k)) =
      l.filter (fun z => decide (key z = k)) := by
  intro l
  induction l with
  | nil => rfl
  | cons x xs ih =>
    show (insertK (ltK key rev) x (pyKeySort key rev xs)).filter _ = _
    by_cases hx : key x = k
    · rw [filter_insertK_pos key rev k x hx, ih]
      simp [hx]
    · rw [filter_insertK_neg key rev k x hx, ih]
      simp [hx]

/-- The order `sorted` leaves a list in: no later element strictly
precedes an earlier one. -/
def SortedK (key : NodeId → Int) (rev : Bool) (l : List NodeId) : Prop :=
  List.Pairwise (fun a b => ltK key rev b a = false) l

theorem sorted_insertK (key : NodeId → Int) (rev : Bool) (x : NodeId) :
    ∀ l, SortedK key rev l → SortedK key rev (insertK (ltK key rev) x l) := by
  intro l
  induction l with
  | nil => intro _; simp [insertK, SortedK]
  | cons y ys ih =>
    intro hs
    rw [SortedK, List.pairwise_cons] at hs
    by_cases hy : ltK key rev y x = true
    · simp only [insertK, hy, if_true]
      rw [SortedK, List.pairwise_cons]
      constructor
      · intro z hz
        rcases mem_insertK _ x ys z hz with rfl | hz2
        · exact ltK_asymm key rev y z hy
        · exact hs.1 z hz2
      · exact ih hs.2
    · simp only [insertK, hy, if_false, Bool.false_eq_true]
      rw [SortedK, List.pairwise_cons]
      refine ⟨?_, List.Pairwise.cons hs.1 hs.2⟩
      intro z hz
      rcases List.mem_cons.mp hz with rfl | hz2
      · exact Bool.eq_false_iff.mpr hy
      · exact ltK_false_trans key rev x y z (Bool.eq_false_iff.mpr hy) (hs.1 z hz2)

theorem sorted_pyKeySort (key : NodeId → Int) (rev : Bool) :
    ∀ l, SortedK key rev (pyKeySort key rev l) := by
  intro l
  induction l with
  | nil => simp [pyKeySort, SortedK]
  | cons x xs ih => exact sorted_insertK key rev x _ ih

theorem pyKeySort_of_sorted (key : NodeId → Int) (rev : Bool) :
    ∀ l, SortedK key rev l → pyKeySort key rev l = l := by
  intro l
  induction l with
  | nil => intro _; rfl
  | cons x xs ih =>
    intro hs
    rw [SortedK, List.pairwise_cons] at hs
    show insertK (ltK key rev) x (pyKeySort key rev xs) = x :: xs
    rw [ih hs.2]
    cases xs with
    | nil => rfl
    | cons y ys =>
      have hyx : ltK key rev y x = false := hs.1 y (by simp)
      simp [insertK, hyx]

theorem pyKeySort_idem (key : NodeId → Int) (rev : Bool) (l : List NodeId) :
    pyKeySort key rev (pyKeySort key rev l) = pyKeySort key rev l :=
  pyKeySort_of_sorted key rev _ (sorted_pyKeySort key rev l)

/-! ## Tidiness of heaps and frame conditions for `sortChildren`

A heap is tidy when every node's `children` attribute points below the
list-allocation counter (as every heap the API produces does); tidiness
is what makes a fresh allocation invisible to all other nodes. -/

def TidyB (h : Heap) : Bool :=
  decide (0 < h.nextList) &&
    h.nodes.all (fun p => decide (p.2.childrenAttr < h.nextList))

theorem lookup_mem {α : Type} [DecidableEq α] {β : Type} :
    ∀ (l : List (α × β)) (k : α) (o : β), l.lookup k = some o → (k, o) ∈ l := by
  intro l
  induction l with
  | nil => intro k o hk; simp [List.lookup] at hk
  | cons p rest ih =>
    intro k o hk
    cases p with
    | mk k2 o2 =>
      by_cases hkk : (k == k2) = true
      · rw [List.lookup] at hk
        rw [hkk] at hk
        simp only [Option.some.injEq] at hk
        subst hk
        have : k = k2 := by simpa using hkk
        subst this
        simp
      · rw [List.lookup] at hk
        rw [Bool.eq_false_iff.mpr hkk] at hk
        exact List.mem_cons.mpr (Or.inr (ih k o hk))

theorem tidy_attr_lt (h : Heap) (ht : TidyB h = true) (n : NodeId) :
    (getNode h n).childrenAttr < h.nextList := by
  unfold TidyB at ht
  simp only [Bool.and_eq_true, decide_eq_true_iff, List.all_eq_true] at ht
  unfold getNode
  cases hl : h.nodes.lookup n with
  | none => simpa using ht.1
  | some o =>
    have := ht.2 (n, o) (lookup_mem h.nodes n o hl)
    simpa using this

theorem nextNode_allocAssign (h : Heap) (c : NodeId) (s : List NodeId) :
    (allocAssign h c s).nextNode = h.nextNode := rfl

theorem tidy_allocAssign (h : Heap) (c : NodeId) (s : List NodeId)
    (ht : TidyB h = true) : TidyB (allocAssign h c s) = true := by
  unfold TidyB at ht
  simp only [Bool.and_eq_true, decide_eq_true_iff, List.all_eq_true] at ht
  have hnodes : (allocAssign h c s).nodes =
      (c, ⟨(getNode h c).parentAttr, h.nextList, (getNode h c).dictChildren,
        (getNode h c).payload⟩) :: h.nodes := rfl
  have hnext : (allocAssign h c s).nextList = h.nextList + 1 := rfl
  unfold TidyB
  simp only [Bool.and_eq_true, decide_eq_true_iff, List.all_eq_true, hnodes, hnext]
  refine ⟨Nat.succ_pos _, ?_⟩
  intro p hp
  rcases List.mem_cons.mp hp with rfl | hp
  · exact Nat.lt_succ_self _
  · exact Nat.lt_succ_of_lt (ht.2 p hp)

theorem content_allocAssign_self (h : Heap) (c : NodeId) (s : List NodeId) :
    content (allocAssign h c s) c = s := by
  unfold content allocAssign
  rw [getNode_setNode_self, getList_setNode]
  simp [getList, List.lookup]

theorem content_allocAssign_ne (h : Heap) (c : NodeId) (s : List NodeId) (m : NodeId)
    (ht : TidyB h = true) (hm : m ≠ c) :
    content (allocAssign h c s) m = content h m := by
  have hlt := tidy_attr_lt h ht m
  unfold content allocAssign
  rw [getList_setNode, getNode_setNode_ne _ _ _ _ hm]
  have hgm : getNode ⟨h.nodes, (h.nextList, s) :: h.lists, h.nextNode, h.nextList + 1⟩ m
      = getNode h m := rfl
  rw [hgm]
  unfold getList
  have hb2 : ((getNode h m).childrenAttr == h.nextList) = false :=
    beq_eq_false_iff_ne.mpr (Nat.ne_of_lt hlt)
  simp [List.lookup, hb2]

/-- Every content change `allocAssign` makes, seen per node. -/
theorem content_allocAssign (h : Heap) (c : NodeId) (s : List NodeId) (m : NodeId)
    (ht : TidyB h = true) :
    content (allocAssign h c s) m = if m = c then s else content h m := by
  by_cases hm : m = c
  · subst hm; simp [content_allocAssign_self]
  · simp [hm, content_allocAssign_ne h c s m ht hm]

theorem nextNode_sortChildren (key : NodeId → Int) (rev : Bool) :
    ∀ (fuel : Nat) (l : List NodeId) (h : Heap),
      (sortChildren key rev fuel h l).nextNode = h.nextNode := by
  intro fuel
  induction fuel with
  | zero => intro l h; simp [sortChildren]
  | succ fuel ihf =>
    intro l
    induction l with
    | nil => intro h; simp [sortChildren]
    | cons c rest ihl =>
      intro h
      by_cases hcl : content h c = []
      · simp only [sortChildren, hcl, if_true]
        exact ihl h
      · simp only [sortChildren, hcl, if_false]
        rw [ihl, ihf, nextNode_allocAssign]

theorem tidy_sortChildren (key : NodeId → Int) (rev : Bool) :
    ∀ (fuel : Nat) (l : List NodeId) (h : Heap), TidyB h = true →
      TidyB (sortChildren key rev fuel h l) = true := by
  intro fuel
  induction fuel with
  | zero => intro l h ht; simpa [sortChildren] using ht
  | succ fuel ihf =>
    intro l
    induction l with
    | nil => intro h ht; simpa [sortChildren] using ht
    | cons c rest ihl =>
      intro h ht
      by_cases hcl : content h c = []
      · simp only [sortChildren, hcl, if_true]
        exact ihl h ht
      · simp only [sortChildren, hcl, if_false]
        exact ihl _ (ihf _ _ (tidy_allocAssign h c _ ht))

/-- Fixed contents never change: if a node's children list is already a
fixed point of the key sort, no `sortChildren` run alters it. -/
theorem content_fixed_sortChildren (key : NodeId → Int) (rev : Bool) :
    ∀ (fuel : Nat) (l : List NodeId) (h : Heap) (n : NodeId), TidyB h = true →
      content h n = pyKeySort key rev (content h n) →
      content (sortChildren key rev fuel h l) n = content h n := by
  intro fuel
  induction fuel with
  | zero => intro l h n _ _; simp [sortChildren]
  | succ fuel ihf =>
    intro l
    induction l with
    | nil => intro h n _ _; simp [sortChildren]
    | cons c rest ihl =>
      intro h n ht hfix
      by_cases hcl : content h c = []
      · simp only [sortChildren, hcl, if_true]
        exact ihl h n ht hfix
      · simp only [sortChildren, hcl, if_false]
        have ht1 := tidy_allocAssign h c (pyKeySort key rev (content h c)) ht
        have hstep : content (allocAssign h c (pyKeySort key rev (content h c))) n
            = content h n := by
          rw [content_allocAssign h c _ n ht]
          by_cases hn : n = c
          · subst hn
            simp only [if_true]
            exact hfix.symm
          · simp [hn]
        have hfix1 : content (allocAssign h c (pyKeySort key rev (content h c))) n
            = pyKeySort key rev
              (content (allocAssign h c (pyKeySort key rev (content h c))) n) := by
          rw [hstep]; exact hfix
        have h2 := ihf (pyKeySort key rev (content h c)) _ n ht1 hfix1
        have ht2 := tidy_sortChildren key rev fuel (pyKeySort key rev (content h c)) _ ht1
        have hfix2 : content (sortChildren key rev fuel
            (allocAssign h c (pyKeySort key rev (content h c)))
            (pyKeySort key rev (content h c))) n
            = pyKeySort key rev (content (sortChildren key rev fuel
              (allocAssign h c (pyKeySort key rev (content h c)))
              (pyKeySort key rev (content h c))) n) := by
          rw [h2, hstep]; exact hfix
        rw [ihl _ n ht2 hfix2, h2, hstep]

/-- Contents only ever move to their sorted image. -/
theorem content_sortChildren_cases (key : NodeId → Int) (rev : Bool) :
    ∀ (fuel : Nat) (l : List NodeId) (h : Heap) (n : NodeId), TidyB h = true →
      content (sortChildren key rev fuel h l) n = content h n ∨
      content (sortChildren key rev fuel h l) n = pyKeySort key rev (content h n) := by
  intro fuel
  induction fuel with
  | zero => intro l h n _; exact Or.inl (by simp [sortChildren])
  | succ fuel ihf =>
    intro l
    induction l with
    | nil => intro h n _; exact Or.inl (by simp [sortChildren])
    | cons c rest ihl =>
      intro h n ht
      by_cases hcl : content h c = []
      · simp only [sortChildren, hcl, if_true]
        exact ihl h n ht
      · simp only [sortChildren, hcl, if_false]
        have ht1 := tidy_allocAssign h c (pyKeySort key rev (content h c)) ht
        have ht2 := tidy_sortChildren key rev fuel (pyKeySort key rev (content h c)) _ ht1
        have hstep : content (allocAssign h c (pyKeySort key rev (content h c))) n
              = content h n ∨
            content (allocAssign h c (pyKeySort key rev (content h c))) n
              = pyKeySort key rev (content h n) := by
          rw [content_allocAssign h c _ n ht]
          by_cases hn : n = c
          · subst hn; simp
          · simp [hn]
        have h2 := ihf (pyKeySort key rev (content h c)) _ n ht1
        have h3 := ihl _ n ht2
        have comp : ∀ (a b c2 : List NodeId),
            (b = a ∨ b = pyKeySort key rev a) → (c2 = b ∨ c2 = pyKeySort key rev b) →
            (c2 = a ∨ c2 = pyKeySort key rev a) := by
          intro a b c2 hab hbc
          rcases hab with rfl | rfl
          · exact hbc
          · rcases hbc with rfl | rfl
            · exact Or.inr rfl
            · exact Or.inr (pyKeySort_idem key rev a)
        exact comp _ _ _ (comp _ _ _ hstep h2) h3

/-! ## Idempotence of the recursive sort -/

/-- The heap is already fully processed along the given recursion
pattern: every node the sort's descent would visit holds a children list
that is a fixed point of the key sort. -/
def Processed (key : NodeId → Int) (rev : Bool) (h : Heap) : Nat → List NodeId → Prop
  | 0, _ => True
  | _ + 1, [] => True
  | fuel + 1, c :: rest =>
    (content h c = [] → Processed key rev h (fuel + 1) rest) ∧
    (content h c ≠ [] →
      pyKeySort key rev (content h c) = content h c ∧
      Processed key rev h fuel (content h c) ∧
      Processed key rev h (fuel + 1) rest)
termination_by fuel l => (fuel, l.length)

/-- `Processed` only inspects sort-fixed contents, so it survives any
heap change that preserves sort-fixed contents. -/
theorem processed_preserved (key : NodeId → Int) (rev : Bool) (h h2 : Heap)
    (HP : ∀ n, content h n = pyKeySort key rev (content h n) →
      content h2 n = content h n) :
    ∀ (fuel : Nat) (l : List NodeId),
      Processed key rev h fuel l → Processed key rev h2 fuel l := by
  intro fuel
  induction fuel with
  | zero => intro l _; simp [Processed]
  | succ fuel ihf =>
    intro l
    induction l with
    | nil => intro _; simp [Processed]
    | cons c rest ihl =>
      intro hp
      simp only [Processed] at hp ⊢
      by_cases hcl : content h c = []
      · have hc2 : content h2 c = [] := by
          have := HP c (by rw [hcl]; rfl)
          rw [this, hcl]
        refine ⟨fun _ => ihl (hp.1 hcl), fun hne => absurd hc2 hne⟩
      · obtain ⟨hfix, hsub, hrest⟩ := hp.2 hcl
        have hc2 : content h2 c = content h c := HP c hfix.symm
        refine ⟨fun habs => absurd (hc2 ▸ habs) hcl, fun _ => ?_⟩
        rw [hc2]
        exact ⟨hfix, ihf (content h c) hsub, ihl hrest⟩

/-- Running the sort's descent on a processed heap changes no content. -/
theorem run_noop (key : NodeId → Int) (rev : Bool) :
    ∀ (fuel : Nat) (l : List NodeId) (h : Heap), TidyB h = true →
      Processed key rev h fuel l →
      ∀ n, content (sortChildren key rev fuel h l) n = content h n := by
  intro fuel
  induction fuel with
  | zero => intro l h _ _ n; simp [sortChildren]
  | succ fuel ihf =>
    intro l
    induction l with
    | nil => intro h _ _ n; simp [sortChildren]
    | cons c rest ihl =>
      intro h ht hp n
      simp only [Processed] at hp
      by_cases hcl : content h c = []
      · simp only [sortChildren, hcl, if_true]
        exact ihl h ht (hp.1 hcl) n
      · obtain ⟨hfix, hsub, hrest⟩ := hp.2 hcl
        simp only [sortChildren, hcl, if_false]
        have ht1 := tidy_allocAssign h c (pyKeySort key rev (content h c)) ht
        have hcont1 : ∀ m, content (allocAssign h c (pyKeySort key rev (content h c))) m
            = content h m := by
          intro m
          rw [content_allocAssign h c _ m ht]
          by_cases hm : m = c
          · subst hm; simp [hfix]
          · simp [hm]
        have hp1 : Processed key rev (allocAssign h c (pyKeySort key rev (content h c)))
            fuel (content h c) :=
          processed_preserved key rev h _ (fun m _ => hcont1 m) fuel (content h c) hsub
        have hp1b : Processed key rev (allocAssign h c (pyKeySort key rev (content h c)))
            fuel (pyKeySort key rev (content h c)) := by
          nth_rewrite 2 [hfix]
          exact hp1
        have hcont2 : ∀ m, content (sortChildren key rev fuel
            (allocAssign h c (pyKeySort key rev (content h c)))
            (pyKeySort key rev (content h c))) m = content h m := by
          intro m
          rw [ihf _ _ ht1 hp1b m, hcont1 m]
        have ht2 := tidy_sortChildren key rev fuel (pyKeySort key rev (content h c)) _ ht1
        have hp2 : Processed key rev (sortChildren key rev fuel
            (allocAssign h c (pyKeySort key rev (content h c)))
            (pyKeySort key rev (content h c))) (fuel + 1) rest :=
          processed_preserved key rev h _ (fun m _ => hcont2 m) (fuel + 1) rest hrest
        rw [ihl _ ht2 hp2 n, hcont2 n]

/-- After a run of the sort's descent, the resulting heap is processed
along the very same recursion pattern. -/
theorem run_processed (key : NodeId → Int) (rev : Bool) :
    ∀ (fuel : Nat) (l : List NodeId) (h : Heap), TidyB h = true →
      Processed key rev (sortChildren key rev fuel h l) fuel l := by
  intro fuel
  induction fuel with
  | zero => intro l h _; simp [Processed]
  | succ fuel ihf =>
    intro l
    induction l with
    | nil => intro h _; simp [Processed]
    | cons c rest ihl =>
      intro h ht
      by_cases hcl : content h c = []
      · simp only [sortChildren, hcl, if_true]
        have hfix0 : content h c = pyKeySort key rev (content h c) := by rw [hcl]; rfl
        have hc2 : content (sortChildren key rev (fuel + 1) h rest) c = [] := by
          rw [content_fixed_sortChildren key rev (fuel + 1) rest h c ht hfix0, hcl]
        simp only [Processed]
        exact ⟨fun _ => ihl h ht, fun hne => absurd hc2 hne⟩
      · simp only [sortChildren, hcl, if_false]
        have ht1 := tidy_allocAssign h c (pyKeySort key rev (content h c)) ht
        have ht2 := tidy_sortChildren key rev fuel (pyKeySort key rev (content h c)) _ ht1
        have hfix1 : content (allocAssign h c (pyKeySort key rev (content h c))) c
            = pyKeySort key rev
              (content (allocAssign h c (pyKeySort key rev (content h c))) c) := by
          rw [content_allocAssign_self, pyKeySort_idem]
        have hcc2 : content (sortChildren key rev fuel
            (allocAssign h c (pyKeySort key rev (content h c)))
            (pyKeySort key rev (content h c))) c
            = pyKeySort key rev (content h c) := by
          rw [content_fixed_sortChildren key rev fuel _ _ c ht1 hfix1,
            content_allocAssign_self]
        have hfix2 : content (sortChildren key rev fuel
            (allocAssign h c (pyKeySort key rev (content h c)))
            (pyKeySort key rev (content h c))) c
            = pyKeySort key rev (content (sortChildren key rev fuel
              (allocAssign h c (pyKeySort key rev (content h c)))
              (pyKeySort key rev (content h c))) c) := by
          rw [hcc2, pyKeySort_idem]
        have hccF : content (sortChildren key rev (fuel + 1) (sortChildren key rev fuel
            (allocAssign h c (pyKeySort key rev (content h c)))
            (pyKeySort key rev (content h c))) rest) c
            = pyKeySort key rev (content h c) := by
          rw [content_fixed_sortChildren key rev (fuel + 1) rest _ c ht2 hfix2, hcc2]
        have hne : content (sortChildren key rev (fuel + 1) (sortChildren key rev fuel
            (allocAssign h c (pyKeySort key rev (content h c)))
            (pyKeySort key rev (content h c))) rest) c ≠ [] := by
          rw [hccF]
          exact pyKeySort_ne_nil key rev _ hcl
        simp only [Processed]
        refine ⟨fun habs => absurd habs hne, fun _ => ?_⟩
        refine ⟨by rw [hccF, pyKeySort_idem], ?_, ihl _ ht2⟩
        rw [hccF]
        have hsub : Processed key rev (sortChildren key rev fuel
            (allocAssign h c (pyKeySort key rev (content h c)))
            (pyKeySort key rev (content h c))) fuel
            (pyKeySort key rev (content h c)) := ihf _ _ ht1
        exact processed_preserved key rev _ _
          (fun m hf => content_fixed_sortChildren key rev (fuel + 1) rest _ m ht2 hf)
          fuel (pyKeySort key rev (content h c)) hsub

/-- C6: on a tidy state, `sort` is stable and idempotent.  Idempotence:
sorting twice with the same key and reverse flag leaves the root order
and every node's children order exactly as after sorting once.
Stability: at the top level and for every node's children list, the
subsequence of entries sharing any given key value is preserved — ties
keep their prior relative order at every level. -/
theorem sortAll_stable_idempotent (st : HLState) (key : NodeId → Int) (rev : Bool)
    (ht : TidyB st.heap = true) :
    ((sortAllModel key rev (sortAllModel key rev st)).roots
        = (sortAllModel key rev st).roots ∧
     ∀ n, content (sortAllModel key rev (sortAllModel key rev st)).heap n
        = content (sortAllModel key rev st).heap n) ∧
    ((∀ k : Int, (sortAllModel key rev st).roots.filter (fun x => decide (key x = k))
        = st.roots.filter (fun x => decide (key x = k))) ∧
     ∀ (n : NodeId) (k : Int),
        (content (sortAllModel key rev st).heap n).filter (fun x => decide (key x = k))
        = (content st.heap n).filter (fun x => decide (key x = k))) := by
  have hroots1 : (sortAllModel key rev st).roots = pyKeySort key rev st.roots := rfl
  have hheap1 : (sortAllModel key rev st).heap
      = sortChildren key rev st.heap.nextNode st.heap (pyKeySort key rev st.roots) := rfl
  constructor
  · constructor
    · show pyKeySort key rev (sortAllModel key rev st).roots
        = (sortAllModel key rev st).roots
      rw [hroots1, pyKeySort_idem]
    · intro n
      have hnn : (sortAllModel key rev st).heap.nextNode = st.heap.nextNode := by
        rw [hheap1, nextNode_sortChildren]
      have hr2 : pyKeySort key rev (sortAllModel key rev st).roots
          = pyKeySort key rev st.roots := by rw [hroots1, pyKeySort_idem]
      show content (sortChildren key rev (sortAllModel key rev st).heap.nextNode
          (sortAllModel key rev st).heap
          (pyKeySort key rev (sortAllModel key rev st).roots)) n
        = content (sortAllModel key rev st).heap n
      rw [hnn, hr2, hheap1]
      have ht1 : TidyB (sortChildren key rev st.heap.nextNode st.heap
          (pyKeySort key rev st.roots)) = true :=
        tidy_sortChildren key rev _ _ _ ht
      have hproc := run_processed key rev st.heap.nextNode
        (pyKeySort key rev st.roots) st.heap ht
      exact run_noop key rev st.heap.nextNode (pyKeySort key rev st.roots) _ ht1 hproc n
  · constructor
    · intro k
      rw [hroots1]
      exact pyKeySort_filter_key key rev k st.roots
    · intro n k
      rw [hheap1]
      rcases content_sortChildren_cases key rev st.heap.nextNode
        (pyKeySort key rev st.roots) st.heap n ht with hcase | hcase
      · rw [hcase]
      · rw [hcase]
        exact pyKeySort_filter_key key rev k _

/-- C6 witnessed on the three-item tree with a key that reorders the two
children. -/
theorem sortAll_stable_idempotent_witness :
    TidyB S3.heap = true ∧
    (((sortAllModel (fun n => -(n : Int)) false
          (sortAllModel (fun n => -(n : Int)) false S3)).roots
        = (sortAllModel (fun n => -(n : Int)) false S3).roots ∧
      ∀ n, content (sortAllModel (fun n => -(n : Int)) false
            (sortAllModel (fun n => -(n : Int)) false S3)).heap n
          = content (sortAllModel (fun n => -(n : Int)) false S3).heap n) ∧
     ((∀ k : Int, (sortAllModel (fun n => -(n : Int)) false S3).roots.filter
            (fun x : NodeId => decide (-(x : Int) = k))
          = S3.roots.filter (fun x : NodeId => decide (-(x : Int) = k))) ∧
      ∀ (n : NodeId) (k : Int),
        (content (sortAllModel (fun n => -(n : Int)) false S3).heap n).filter
            (fun x : NodeId => decide (-(x : Int) = k))
          = (content S3.heap n).filter (fun x : NodeId => decide (-(x : Int) = k)))) :=
  ⟨by decide, sortAll_stable_idempotent S3 (fun n => -(n : Int)) false (by decide)⟩

end Da
